import Mathlib

/-
Shallow embedding of `src/lib.rs` (crate shortqueue): a fixed-capacity
SPSC ring buffer `ShortQueue<N>` over bytes, with cursors stored as `u8`.

Modelling conventions:
- machine `u8` arithmetic is made explicit with `% 256`;
- a Rust panic (remainder by zero, out-of-range checked indexing) is `none`;
- the atomic loads/stores of the sequential algorithm are plain state
  passing (memory-ordering effects are outside this embedding);
- the `Producer` and `Consumer` handles of the source borrow the same core,
  so their operations are modelled as functions on the shared core state.
-/

structure ShortQueue (N : Nat) where
  head : Nat
  tail : Nat
  buf : List Nat
deriving DecidableEq

/-- Valid compile-time capacity parameter per the construction asserts. -/
def ValidN (N : Nat) : Prop := 1 ≤ N ∧ N ≤ 256

instance (N : Nat) : Decidable (ValidN N) := by
  unfold ValidN; infer_instance

namespace ShortQueue

variable {N : Nat}

/-- Models `fn increment(p: u8) -> u8 { p.wrapping_add(1) % (N as u8) }`.
`N as u8` is `N % 256`; when it is zero the remainder panics, hence `none`. -/
def increment (N p : Nat) : Option Nat :=
  if N % 256 = 0 then none else some ((p + 1) % 256 % (N % 256))

/-- The freshly constructed state: both cursors 0, zeroed backing array. -/
def init (N : Nat) : ShortQueue N :=
  ⟨0, 0, List.replicate N 0⟩

/-- Models `const fn new()`: the asserts reject N = 0 and N > 256. -/
def new (N : Nat) : Option (ShortQueue N) :=
  if 0 < N ∧ N ≤ 256 then some (init N) else none

/-- Models `const fn capacity(&self) -> usize { N - 1 }`. -/
def capacity (N : Nat) : Nat := N - 1

/-- Models `fn len(&self)`:
`tail.wrapping_sub(head).wrapping_add(N as u8) % (N as u8)` in `u8`
arithmetic; the final remainder panics when `N as u8 == 0`. -/
def len (q : ShortQueue N) : Option Nat :=
  if N % 256 = 0 then none
  else some (((q.tail % 256 + 256 - q.head % 256) % 256 + N % 256) % 256 % (N % 256))

/-- Models `fn push_inner(&self, v: u8) -> bool`: load tail, compute
`next_tail = increment(tail)`, full check against head, write slot `tail`,
publish `next_tail`.  The returned pair is (result, new state). -/
def push_inner (q : ShortQueue N) (v : Nat) : Option (Bool × ShortQueue N) :=
  match increment N q.tail with
  | none => none
  | some next_tail =>
    if next_tail = q.head then some (false, q)
    else some (true, ⟨q.head, next_tail, q.buf.set q.tail v⟩)

/-- Models `fn pop_inner(&self) -> Option<u8>`: load head, empty check
against tail, compute `next_head = increment(head)`, read slot `head`
(checked indexing: out of range is a panic), publish `next_head`. -/
def pop_inner (q : ShortQueue N) : Option (Option Nat × ShortQueue N) :=
  if q.head = q.tail then some (none, q)
  else
    match increment N q.head with
    | none => none
    | some next_head =>
      match q.buf.get? q.head with
      | none => none
      | some rv => some (some rv, ⟨next_head, q.tail, q.buf⟩)

/-- Models `pub fn push`, which forwards to `push_inner`. -/
def push (q : ShortQueue N) (v : Nat) : Option (Bool × ShortQueue N) :=
  push_inner q v

/-- Models `pub fn pop`, which forwards to `pop_inner`. -/
def pop (q : ShortQueue N) : Option (Option Nat × ShortQueue N) :=
  pop_inner q

/-- Models `fn drain(&self)`: store the current tail into head. -/
def drain (q : ShortQueue N) : ShortQueue N :=
  ⟨q.tail, q.tail, q.buf⟩

/-- Models `fn is_empty(&self)`: head == tail. -/
def is_empty (q : ShortQueue N) : Bool :=
  q.head == q.tail

/-- Models `fn is_full(&self)`: increment(tail) == head (the increment
panics when `N as u8 == 0`). -/
def is_full (q : ShortQueue N) : Option Bool :=
  (increment N q.tail).map (fun nt => nt == q.head)

end ShortQueue

namespace Producer

variable {N : Nat}

/-- Models `Producer::push`, forwarding to the shared core's `push_inner`. -/
def push (core : ShortQueue N) (b : Nat) : Option (Bool × ShortQueue N) :=
  ShortQueue.push_inner core b

/-- Models `Producer::is_empty`, forwarding to the shared core. -/
def is_empty (core : ShortQueue N) : Bool :=
  ShortQueue.is_empty core

/-- Models `Producer::is_full`, forwarding to the shared core. -/
def is_full (core : ShortQueue N) : Option Bool :=
  ShortQueue.is_full core

end Producer

namespace Consumer

variable {N : Nat}

/-- Models `Consumer::pop`, forwarding to the shared core's `pop_inner`. -/
def pop (core : ShortQueue N) : Option (Option Nat × ShortQueue N) :=
  ShortQueue.pop_inner core

/-- Models `Consumer::drain`, forwarding to the shared core. -/
def drain (core : ShortQueue N) : ShortQueue N :=
  ShortQueue.drain core

/-- Models `Consumer::is_empty`, forwarding to the shared core. -/
def is_empty (core : ShortQueue N) : Bool :=
  ShortQueue.is_empty core

/-- Models `Consumer::is_full`, forwarding to the shared core. -/
def is_full (core : ShortQueue N) : Option Bool :=
  ShortQueue.is_full core

end Consumer

/-- One external operation on the queue. -/
inductive Op where
  | push : Nat → Op
  | pop : Op
  | drain : Op

/-- One operation applied to a state; `none` is a panic. -/
def step {N : Nat} (q : ShortQueue N) : Op → Option (ShortQueue N)
  | .push v => (ShortQueue.push_inner q v).map (·.2)
  | .pop => (ShortQueue.pop_inner q).map (·.2)
  | .drain => some (ShortQueue.drain q)

/-- A sequence of operations applied from a state. -/
def run {N : Nat} (q : ShortQueue N) : List Op → Option (ShortQueue N)
  | [] => some q
  | op :: ops =>
    match step q op with
    | none => none
    | some q1 => run q1 ops

/-- A state is reachable if some operation sequence from the fresh queue
produces it (with no panic along the way). -/
def Reachable (N : Nat) (q : ShortQueue N) : Prop :=
  ∃ ops, run (ShortQueue.init N) ops = some q

/-- A sequence of pushes, all of which must succeed (return true). -/
def pushAll {N : Nat} (q : ShortQueue N) : List Nat → Option (ShortQueue N)
  | [] => some q
  | v :: vs =>
    match ShortQueue.push_inner q v with
    | some (true, q1) => pushAll q1 vs
    | _ => none

/-- A fixed number of pops, all of which must return a value. -/
def popAll {N : Nat} (q : ShortQueue N) : Nat → Option (List Nat × ShortQueue N)
  | 0 => some ([], q)
  | k + 1 =>
    match ShortQueue.pop_inner q with
    | some (some v, q1) =>
      match popAll q1 k with
      | some (l, qf) => some (v :: l, qf)
      | none => none
    | _ => none

/-- Structural invariant of reachable states: both cursors in range, the
backing array has length N, and at N = 256 (where every cursor update
panics) the cursors never separate. -/
def QInv {N : Nat} (q : ShortQueue N) : Prop :=
  q.head < N ∧ q.tail < N ∧ q.buf.length = N ∧ (N = 256 → q.head = q.tail)

/-- The mathematical occupied-count (tail - head + N) mod N. -/
def lenPure {N : Nat} (q : ShortQueue N) : Nat :=
  (q.tail + N - q.head) % N

/-- The abstract contents of the ring: the occupied slots, oldest first. -/
def listOf {N : Nat} (q : ShortQueue N) : List Nat :=
  (List.range (lenPure q)).map (fun i => q.buf.getD ((q.head + i) % N) 0)

section Helpers

lemma getD_set_self (l : List Nat) :
    ∀ i v, i < l.length → (l.set i v).getD i 0 = v := by
  induction l with
  | nil => intro i v h; simp at h
  | cons a as ih =>
    intro i v h
    cases i with
    | zero => rfl
    | succ n =>
      have hn : n < as.length := by simpa using h
      simpa [List.set, List.getD] using ih n v hn

lemma getD_set_ne (l : List Nat) :
    ∀ i j v, i ≠ j → (l.set i v).getD j 0 = l.getD j 0 := by
  induction l with
  | nil => intro i j v _; simp [List.set]
  | cons a as ih =>
    intro i j v hne
    cases i with
    | zero =>
      cases j with
      | zero => exact absurd rfl hne
      | succ m => rfl
    | succ n =>
      cases j with
      | zero => rfl
      | succ m =>
        have : n ≠ m := fun h => hne (by rw [h])
        simpa [List.set, List.getD] using ih n m v this

lemma get?_eq_some_getD (l : List Nat) :
    ∀ i, i < l.length → l.get? i = some (l.getD i 0) := by
  induction l with
  | nil => intro i h; simp at h
  | cons a as ih =>
    intro i h
    cases i with
    | zero => rfl
    | succ n =>
      have hn : n < as.length := by simpa using h
      simpa [List.get?, List.getD] using ih n hn

lemma mod_add_left_cancel {N h i j : Nat} (hi : i < N) (hj : j < N)
    (heq : (h + i) % N = (h + j) % N) : i = j := by
  have hij : i ≡ j [MOD N] := Nat.ModEq.add_left_cancel' h heq
  calc i = i % N := (Nat.mod_eq_of_lt hi).symm
    _ = j % N := hij
    _ = j := Nat.mod_eq_of_lt hj

lemma head_add_lenPure {N : Nat} {q : ShortQueue N}
    (hh : q.head < N) (ht : q.tail < N) :
    (q.head + lenPure q) % N = q.tail := by
  have hle : q.head ≤ q.tail + N := by omega
  calc (q.head + (q.tail + N - q.head) % N) % N
      = (q.head + (q.tail + N - q.head)) % N := Nat.add_mod_mod _ _ _
    _ = (q.tail + N) % N := by rw [Nat.add_sub_cancel' hle]
    _ = q.tail % N := Nat.add_mod_right _ _
    _ = q.tail := Nat.mod_eq_of_lt ht

lemma lenPure_lt {N : Nat} (hN : 0 < N) (q : ShortQueue N) : lenPure q < N :=
  Nat.mod_lt _ hN

lemma lenPure_unique {N : Nat} (hN : 0 < N) (q : ShortQueue N) {d : Nat}
    (hh : q.head < N) (ht : q.tail < N) (hd : d < N)
    (h : (q.head + d) % N = q.tail) : lenPure q = d :=
  mod_add_left_cancel (lenPure_lt hN q) hd
    (by rw [head_add_lenPure hh ht, h])

lemma lenPure_eq_zero_iff {N : Nat} {q : ShortQueue N}
    (hh : q.head < N) (ht : q.tail < N) :
    lenPure q = 0 ↔ q.head = q.tail := by
  constructor
  · intro h0
    have := head_add_lenPure hh ht
    rw [h0] at this
    simpa [Nat.mod_eq_of_lt hh] using this
  · intro he
    unfold lenPure
    rw [he, Nat.add_sub_cancel_left, Nat.mod_self]

lemma listOf_init (N : Nat) : listOf (ShortQueue.init N) = [] := by
  have h0 : lenPure (ShortQueue.init N) = 0 := by
    unfold lenPure ShortQueue.init
    simp
  simp [listOf, h0]

lemma increment_eq {N p : Nat} (h1 : 1 ≤ N) (h255 : N ≤ 255) (hp : p + 1 ≤ 255) :
    ShortQueue.increment N p = some ((p + 1) % N) := by
  have hm : N % 256 = N := Nat.mod_eq_of_lt (by omega)
  unfold ShortQueue.increment
  rw [if_neg (by omega)]
  rw [hm, Nat.mod_eq_of_lt (show p + 1 < 256 by omega)]

lemma increment_none {N p : Nat} (h256 : N % 256 = 0) :
    ShortQueue.increment N p = none := by
  simp [ShortQueue.increment, h256]

lemma push_inner_some_true {N : Nat} {q q1 : ShortQueue N} {v : Nat}
    (hN : ValidN N) (ht : q.tail < N)
    (h : ShortQueue.push_inner q v = some (true, q1)) :
    N ≤ 255 ∧ (q.tail + 1) % N ≠ q.head ∧
      q1 = ⟨q.head, (q.tail + 1) % N, q.buf.set q.tail v⟩ := by
  obtain ⟨h1, h2⟩ := hN
  have h255 : N ≤ 255 := by
    by_contra hgt
    have h256 : N % 256 = 0 := by
      have : N = 256 := by omega
      simp [this]
    rw [ShortQueue.push_inner, increment_none h256] at h
    exact Option.noConfusion h
  have hinc : ShortQueue.increment N q.tail = some ((q.tail + 1) % N) :=
    increment_eq h1 h255 (by omega)
  by_cases hne : (q.tail + 1) % N = q.head
  · simp [ShortQueue.push_inner, hinc, hne] at h
  · have hpush : ShortQueue.push_inner q v =
        some (true, ⟨q.head, (q.tail + 1) % N, q.buf.set q.tail v⟩) := by
      simp [ShortQueue.push_inner, hinc, hne]
    rw [hpush] at h
    have h3 := Option.some.inj h
    rw [Prod.mk.injEq] at h3
    exact ⟨h255, hne, h3.2.symm⟩

lemma push_inner_some_false {N : Nat} {q q1 : ShortQueue N} {v : Nat}
    (h : ShortQueue.push_inner q v = some (false, q1)) : q1 = q := by
  unfold ShortQueue.push_inner at h
  cases hi : ShortQueue.increment N q.tail with
  | none => rw [hi] at h; simp at h
  | some nt =>
    rw [hi] at h
    by_cases hne : nt = q.head
    · simp [hne] at h
      exact h.symm
    · simp [hne] at h

lemma pop_inner_empty {N : Nat} {q : ShortQueue N} (h : q.head = q.tail) :
    ShortQueue.pop_inner q = some (none, q) := by
  simp [ShortQueue.pop_inner, h]

lemma pop_inner_nonempty {N : Nat} {q : ShortQueue N}
    (h1 : 1 ≤ N) (h255 : N ≤ 255) (hh : q.head < N) (hl : q.buf.length = N)
    (hne : q.head ≠ q.tail) :
    ShortQueue.pop_inner q =
      some (some (q.buf.getD q.head 0), ⟨(q.head + 1) % N, q.tail, q.buf⟩) := by
  have hinc : ShortQueue.increment N q.head = some ((q.head + 1) % N) :=
    increment_eq h1 h255 (by omega)
  have hget : q.buf.get? q.head = some (q.buf.getD q.head 0) :=
    get?_eq_some_getD _ _ (by omega)
  unfold ShortQueue.pop_inner
  rw [if_neg hne, hinc, hget]

lemma qinv_init (N : Nat) (h1 : 1 ≤ N) : QInv (ShortQueue.init N) := by
  refine ⟨h1, h1, ?_, fun _ => rfl⟩
  simp [ShortQueue.init]

lemma qinv_step {N : Nat} {q q1 : ShortQueue N} {op : Op}
    (hN : ValidN N) (hq : QInv q) (h : step q op = some q1) : QInv q1 := by
  obtain ⟨hh, ht, hl, h256⟩ := hq
  obtain ⟨hN1, hN2⟩ := hN
  cases op with
  | drain =>
    have hd : q1 = ShortQueue.drain q := by
      simpa [step] using h.symm
    subst hd
    exact ⟨ht, ht, hl, fun _ => rfl⟩
  | pop =>
    simp only [step] at h
    by_cases he : q.head = q.tail
    · rw [pop_inner_empty he] at h
      simp at h
      rw [← h]
      exact ⟨hh, ht, hl, h256⟩
    · have h255 : N ≤ 255 := by
        rcases Nat.lt_or_ge N 256 with hlt | hge
        · omega
        · have hNeq : N = 256 := by omega
          exact absurd (h256 hNeq) he
      rw [pop_inner_nonempty hN1 h255 hh hl he] at h
      simp at h
      rw [← h]
      exact ⟨Nat.mod_lt _ (by omega), ht, hl, fun hc => by omega⟩
  | push v =>
    simp only [step] at h
    cases hp : ShortQueue.push_inner q v with
    | none => rw [hp] at h; simp at h
    | some bq =>
      obtain ⟨b, q2⟩ := bq
      rw [hp] at h
      simp at h
      cases b with
      | false =>
        have hq2 : q2 = q := push_inner_some_false hp
        rw [← h, hq2]
        exact ⟨hh, ht, hl, h256⟩
      | true =>
        obtain ⟨h255, hne, hq2⟩ := push_inner_some_true ⟨hN1, hN2⟩ ht hp
        rw [← h, hq2]
        refine ⟨hh, Nat.mod_lt _ (by omega), ?_, fun hc => by omega⟩
        rw [List.length_set]
        exact hl

lemma run_qinv {N : Nat} (hN : ValidN N) :
    ∀ (ops : List Op) (q q1 : ShortQueue N),
      QInv q → run q ops = some q1 → QInv q1 := by
  intro ops
  induction ops with
  | nil =>
    intro q q1 hq h
    simp [run] at h
    rwa [← h]
  | cons op ops ih =>
    intro q q1 hq h
    unfold run at h
    cases hs : step q op with
    | none => rw [hs] at h; simp at h
    | some q2 =>
      rw [hs] at h
      exact ih q2 q1 (qinv_step hN hq hs) h

lemma reachable_qinv {N : Nat} {q : ShortQueue N}
    (hN : ValidN N) (hr : Reachable N q) : QInv q := by
  obtain ⟨ops, h⟩ := hr
  exact run_qinv hN ops _ _ (qinv_init N hN.1) h

lemma full_of_lenPure {N : Nat} {q : ShortQueue N} (h1 : 1 ≤ N)
    (hh : q.head < N) (ht : q.tail < N) (hfull : lenPure q = N - 1) :
    (q.tail + 1) % N = q.head := by
  have hT := head_add_lenPure hh ht
  rw [hfull] at hT
  calc (q.tail + 1) % N
      = ((q.head + (N - 1)) % N + 1) % N := by rw [hT]
    _ = (q.head + (N - 1) + 1) % N := Nat.mod_add_mod _ _ _
    _ = (q.head + N) % N := by congr 1; omega
    _ = q.head % N := Nat.add_mod_right _ _
    _ = q.head := Nat.mod_eq_of_lt hh

lemma lenPure_push {N : Nat} {q : ShortQueue N} (h1 : 1 ≤ N)
    (hh : q.head < N) (ht : q.tail < N)
    (hne : (q.tail + 1) % N ≠ q.head) (v : Nat) :
    lenPure q + 1 < N ∧
      lenPure (⟨q.head, (q.tail + 1) % N, q.buf.set q.tail v⟩ : ShortQueue N) =
        lenPure q + 1 := by
  have hlt := lenPure_lt (by omega) q
  have hnf : lenPure q ≠ N - 1 := fun c => hne (full_of_lenPure h1 hh ht c)
  have hbound : lenPure q + 1 < N := by omega
  refine ⟨hbound, ?_⟩
  apply lenPure_unique (by omega)
    (⟨q.head, (q.tail + 1) % N, q.buf.set q.tail v⟩ : ShortQueue N)
    hh (Nat.mod_lt _ (by omega)) hbound
  calc (q.head + (lenPure q + 1)) % N
      = (q.head + lenPure q + 1) % N := by rw [← Nat.add_assoc]
    _ = ((q.head + lenPure q) % N + 1) % N := (Nat.mod_add_mod _ _ _).symm
    _ = (q.tail + 1) % N := by rw [head_add_lenPure hh ht]

lemma listOf_push {N : Nat} {q : ShortQueue N} (h1 : 1 ≤ N)
    (hh : q.head < N) (ht : q.tail < N) (hl : q.buf.length = N)
    (hne : (q.tail + 1) % N ≠ q.head) (v : Nat) :
    listOf (⟨q.head, (q.tail + 1) % N, q.buf.set q.tail v⟩ : ShortQueue N) =
      listOf q ++ [v] := by
  obtain ⟨hbound, hlen⟩ := lenPure_push h1 hh ht hne v
  have hT := head_add_lenPure hh ht
  unfold listOf
  rw [hlen, List.range_succ, List.map_append]
  congr 1
  · apply List.map_congr_left
    intro i hi
    have hi0 : i < lenPure q := List.mem_range.1 hi
    show (q.buf.set q.tail v).getD ((q.head + i) % N) 0 =
      q.buf.getD ((q.head + i) % N) 0
    apply getD_set_ne
    intro hc
    rw [← hT] at hc
    exact absurd (mod_add_left_cancel (by omega) (by omega) hc.symm) (by omega)
  · show [(q.buf.set q.tail v).getD ((q.head + lenPure q) % N) 0] = [v]
    rw [hT]
    rw [getD_set_self q.buf q.tail v (by omega)]

lemma listOf_pop {N : Nat} {q : ShortQueue N} (h1 : 1 ≤ N)
    (hh : q.head < N) (ht : q.tail < N) (hne : q.head ≠ q.tail) :
    listOf q = q.buf.getD q.head 0 ::
      listOf (⟨(q.head + 1) % N, q.tail, q.buf⟩ : ShortQueue N) := by
  have hd0 : lenPure q ≠ 0 := fun c => hne ((lenPure_eq_zero_iff hh ht).1 c)
  have hlt := lenPure_lt (by omega) q
  obtain ⟨k, hk⟩ : ∃ k, lenPure q = k + 1 := ⟨lenPure q - 1, by omega⟩
  have hk1 : lenPure (⟨(q.head + 1) % N, q.tail, q.buf⟩ : ShortQueue N) = k := by
    apply lenPure_unique (by omega)
      (⟨(q.head + 1) % N, q.tail, q.buf⟩ : ShortQueue N)
      (Nat.mod_lt _ (by omega)) ht (by omega)
    calc ((q.head + 1) % N + k) % N
        = (q.head + 1 + k) % N := Nat.mod_add_mod _ _ _
      _ = (q.head + (k + 1)) % N := by congr 1; omega
      _ = (q.head + lenPure q) % N := by rw [hk]
      _ = q.tail := head_add_lenPure hh ht
  unfold listOf
  rw [hk, hk1, List.range_succ_eq_map, List.map_cons, List.map_map]
  congr 1
  · show q.buf.getD ((q.head + 0) % N) 0 = q.buf.getD q.head 0
    rw [Nat.add_zero, Nat.mod_eq_of_lt hh]
  · apply List.map_congr_left
    intro i hi
    show q.buf.getD ((q.head + (i + 1)) % N) 0 =
      q.buf.getD (((q.head + 1) % N + i) % N) 0
    congr 1
    calc (q.head + (i + 1)) % N
        = (q.head + 1 + i) % N := by congr 1; omega
      _ = ((q.head + 1) % N + i) % N := (Nat.mod_add_mod _ _ _).symm

lemma pushAll_listOf {N : Nat} (hN : ValidN N) :
    ∀ (vs : List Nat) (q q1 : ShortQueue N),
      QInv q → pushAll q vs = some q1 →
      QInv q1 ∧ listOf q1 = listOf q ++ vs := by
  intro vs
  induction vs with
  | nil =>
    intro q q1 hq h
    simp [pushAll] at h
    rw [← h]
    exact ⟨hq, by simp⟩
  | cons v vs ih =>
    intro q q1 hq h
    unfold pushAll at h
    cases hp : ShortQueue.push_inner q v with
    | none => rw [hp] at h; simp at h
    | some bq =>
      obtain ⟨b, q2⟩ := bq
      rw [hp] at h
      cases b with
      | false => simp at h
      | true =>
        simp at h
        obtain ⟨h255, hne, hq2⟩ := push_inner_some_true hN hq.2.1 hp
        have hN1 : 1 ≤ N := hN.1
        have hq2inv : QInv q2 := by
          rw [hq2]
          refine ⟨hq.1, Nat.mod_lt _ (by omega), ?_, fun hc => by omega⟩
          rw [List.length_set]
          exact hq.2.2.1
        obtain ⟨hinv1, hlist⟩ := ih q2 q1 hq2inv h
        refine ⟨hinv1, ?_⟩
        rw [hlist, hq2, listOf_push hN.1 hq.1 hq.2.1 hq.2.2.1 hne v]
        simp

lemma popAll_listOf {N : Nat} (hN : ValidN N) :
    ∀ (l : List Nat) (q : ShortQueue N), QInv q → listOf q = l →
      ∃ qf, popAll q l.length = some (l, qf) := by
  intro l
  induction l with
  | nil =>
    intro q _ _
    exact ⟨q, rfl⟩
  | cons v rest ih =>
    intro q hq hl
    obtain ⟨hh, ht, hbl, h256⟩ := hq
    have hN1 : 1 ≤ N := hN.1
    have hN2 : N ≤ 256 := hN.2
    have hne : q.head ≠ q.tail := by
      intro he
      have h0 : lenPure q = 0 := (lenPure_eq_zero_iff hh ht).2 he
      simp [listOf, h0] at hl
    have h255 : N ≤ 255 := by
      rcases Nat.lt_or_ge N 256 with hlt | hge
      · omega
      · exact absurd (h256 (by omega)) hne
    have hpop := pop_inner_nonempty hN.1 h255 hh hbl hne
    have hlist := listOf_pop hN.1 hh ht hne
    rw [hl] at hlist
    injection hlist with hv hrest
    have hq2 : QInv (⟨(q.head + 1) % N, q.tail, q.buf⟩ : ShortQueue N) :=
      ⟨Nat.mod_lt _ (by omega), ht, hbl, fun hc => by omega⟩
    obtain ⟨qf, hqf⟩ := ih _ hq2 hrest.symm
    refine ⟨qf, ?_⟩
    show popAll q (rest.length + 1) = some (v :: rest, qf)
    simp only [popAll, hpop, hqf, hv]

end Helpers

/-- C2: at N = 256 (accepted by the construction asserts) the cursor
arithmetic computes a remainder by `256 as u8 == 0`, so push, len and
is_full all panic on the fresh queue; the claim that no operation panics
for every valid capacity 1 <= N <= 256 fails. -/
theorem n256_operations_panic :
    ShortQueue.push_inner (ShortQueue.init 256) 0 = none ∧
    ShortQueue.len (ShortQueue.init 256) = none ∧
    ShortQueue.is_full (ShortQueue.init 256) = none :=
  ⟨rfl, rfl, rfl⟩

/-- C5: drain itself sets head to tail and after it is_empty holds, but at
N = 256 the len() probe panics (remainder by `256 as u8 == 0`) instead of
returning 0, contradicting the claim that len() returns 0 after drain for
every valid N. -/
theorem drain_len_n256_panics :
    ShortQueue.drain (ShortQueue.init 256) = ShortQueue.init 256 ∧
    ShortQueue.is_empty (ShortQueue.drain (ShortQueue.init 256)) = true ∧
    ShortQueue.len (ShortQueue.drain (ShortQueue.init 256)) = none :=
  ⟨rfl, rfl, rfl⟩

/-- C1: FIFO ordering.  For every valid capacity N, pushing any sequence of
at most capacity() values into the fresh queue (all pushes succeeding) and
then popping the same number of times returns exactly the pushed sequence,
in order. -/
theorem fifo_ordering (N : Nat) (vs : List Nat) (q : ShortQueue N)
    (hN : ValidN N) (hcap : vs.length ≤ ShortQueue.capacity N)
    (hpush : pushAll (ShortQueue.init N) vs = some q) :
    ∃ qf, popAll q vs.length = some (vs, qf) := by
  obtain ⟨hinv, hlist⟩ := pushAll_listOf hN vs _ q (qinv_init N hN.1) hpush
  rw [listOf_init N, List.nil_append] at hlist
  exact popAll_listOf hN vs q hinv hlist

/-- Witness for fifo_ordering at N = 4 with the pushed sequence 1,2,3. -/
theorem fifo_ordering_witness :
    pushAll (ShortQueue.init 4) [1, 2, 3] = some ⟨0, 3, [1, 2, 3, 0]⟩ ∧
    ∃ qf, popAll (⟨0, 3, [1, 2, 3, 0]⟩ : ShortQueue 4) 3 = some ([1, 2, 3], qf) :=
  ⟨by decide,
   fifo_ordering 4 [1, 2, 3] ⟨0, 3, [1, 2, 3, 0]⟩ (by decide) (by decide) (by decide)⟩

/-- C3: at N = 129 the state reached by 128 successful pushes is full, so
push returns false and leaves the state unchanged, but len() returns 1
while capacity() is 128: the wrapping_add in len overflows u8, so "push
returns false exactly when len() == capacity()" fails on the code. -/
theorem push_false_len_mismatch :
    (pushAll (ShortQueue.init 129) (List.range 128)).map
      (fun q => (ShortQueue.len q,
        decide (ShortQueue.push_inner q 77 = some (false, q)),
        decide (ShortQueue.len q = some (ShortQueue.capacity 129))))
      = some (some 1, true, false) := by decide

/-- C4: pop returns the empty marker exactly when is_empty() holds (with
the state unchanged), and otherwise returns the value at slot head and
advances head by one modulo N, for every reachable state of a valid N. -/
theorem pop_empty_exact (N : Nat) (q : ShortQueue N)
    (hN : ValidN N) (hr : Reachable N q) :
    (ShortQueue.is_empty q = true → ShortQueue.pop_inner q = some (none, q)) ∧
    (ShortQueue.is_empty q = false →
      ShortQueue.pop_inner q =
        some (some (q.buf.getD q.head 0),
          ⟨(q.head + 1) % N, q.tail, q.buf⟩)) := by
  obtain ⟨hh, ht, hbl, h256⟩ := reachable_qinv hN hr
  constructor
  · intro he
    exact pop_inner_empty (by simpa [ShortQueue.is_empty] using he)
  · intro he
    have hne : q.head ≠ q.tail := by simpa [ShortQueue.is_empty] using he
    have h255 : N ≤ 255 := by
      rcases Nat.lt_or_ge N 256 with hlt | hge
      · omega
      · have hN2 : N ≤ 256 := hN.2
        exact absurd (h256 (by omega)) hne
    exact pop_inner_nonempty hN.1 h255 hh hbl hne

/-- Witness for pop_empty_exact on the fresh (empty) queue of N = 4. -/
theorem pop_empty_exact_witness :
    ShortQueue.pop_inner (ShortQueue.init 4) = some (none, ShortQueue.init 4) :=
  (pop_empty_exact 4 (ShortQueue.init 4) (by decide) ⟨[], rfl⟩).1 rfl

/-- C6: capacity() is N - 1, but after 127 successful pushes on a fresh
queue of N = 129 (127 < capacity() = 128), len() returns 0 instead of 127:
the wrapping_add of `N as u8` in len overflows for N >= 129. -/
theorem len_after_pushes_mismatch :
    (pushAll (ShortQueue.init 129) (List.range 127)).map ShortQueue.len
      = some (some 0) ∧ ShortQueue.capacity 129 = 128 :=
  ⟨by decide, rfl⟩

/-- C7: construction fails exactly when N = 0 or N > 256, and for every
other N yields the empty queue with both cursors 0 and a zeroed array. -/
theorem new_rejects_exactly (N : Nat) :
    (ShortQueue.new N = none ↔ (N = 0 ∨ N > 256)) ∧
    (0 < N → N ≤ 256 →
      ShortQueue.new N = some ⟨0, 0, List.replicate N 0⟩) := by
  constructor
  · by_cases h : 0 < N ∧ N ≤ 256
    · obtain ⟨h1, h2⟩ := h
      simp [ShortQueue.new, h1, h2]
      omega
    · simp [ShortQueue.new, h]
      omega
  · intro h1 h2
    simp [ShortQueue.new, ShortQueue.init, h1, h2]

/-- Witness for new_rejects_exactly at N = 4. -/
theorem new_rejects_exactly_witness :
    ShortQueue.new 4 = some ⟨0, 0, List.replicate 4 0⟩ :=
  (new_rejects_exactly 4).2 (by omega) (by omega)

/-- C8: the Producer and Consumer views alias the same core state and each
forwards to the core operation; a value pushed through the Producer handle
into an empty queue is returned by the next pop through the Consumer
handle. -/
theorem split_views_alias (N : Nat) (q : ShortQueue N) (v : Nat)
    (hN : ValidN N) (hr : Reachable N q) :
    Producer.push q v = ShortQueue.push q v ∧
    Consumer.pop q = ShortQueue.pop q ∧
    Consumer.drain q = ShortQueue.drain q ∧
    Producer.is_empty q = ShortQueue.is_empty q ∧
    Producer.is_full q = ShortQueue.is_full q ∧
    Consumer.is_empty q = ShortQueue.is_empty q ∧
    Consumer.is_full q = ShortQueue.is_full q ∧
    (ShortQueue.is_empty q = true →
      ∀ q1, Producer.push q v = some (true, q1) →
        ∃ q2, Consumer.pop q1 = some (some v, q2)) := by
  obtain ⟨hh, ht, hbl, h256⟩ := reachable_qinv hN hr
  refine ⟨rfl, rfl, rfl, rfl, rfl, rfl, rfl, ?_⟩
  intro he q1 hp
  have heq : q.head = q.tail := by simpa [ShortQueue.is_empty] using he
  obtain ⟨h255, hne, hq1⟩ := push_inner_some_true hN ht hp
  subst hq1
  have hpop : ShortQueue.pop_inner
      (⟨q.head, (q.tail + 1) % N, q.buf.set q.tail v⟩ : ShortQueue N) =
      some (some ((q.buf.set q.tail v).getD q.head 0),
        ⟨(q.head + 1) % N, (q.tail + 1) % N, q.buf.set q.tail v⟩) :=
    pop_inner_nonempty hN.1 h255 hh (by rw [List.length_set]; exact hbl)
      (fun c => hne c.symm)
  have hv : (q.buf.set q.tail v).getD q.head 0 = v := by
    rw [heq]
    exact getD_set_self q.buf q.tail v (by omega)
  refine ⟨⟨(q.head + 1) % N, (q.tail + 1) % N, q.buf.set q.tail v⟩, ?_⟩
  show ShortQueue.pop_inner
      (⟨q.head, (q.tail + 1) % N, q.buf.set q.tail v⟩ : ShortQueue N) =
    some (some v, ⟨(q.head + 1) % N, (q.tail + 1) % N, q.buf.set q.tail v⟩)
  rw [hpop, hv]

/-- Witness for split_views_alias: push 9 via the Producer on a fresh N = 4
queue, then pop via the Consumer. -/
theorem split_views_alias_witness :
    ∃ q2, Consumer.pop (⟨0, 1, [9, 0, 0, 0]⟩ : ShortQueue 4) = some (some 9, q2) :=
  (split_views_alias 4 (ShortQueue.init 4) 9 (by decide) ⟨[], rfl⟩).2.2.2.2.2.2.2
    rfl ⟨0, 1, [9, 0, 0, 0]⟩ (by decide)

lemma step_one (op : Op) :
    step (ShortQueue.init 1) op = some (ShortQueue.init 1) := by
  cases op with
  | push v => rfl
  | pop => rfl
  | drain => rfl

lemma run_one : ∀ (ops : List Op) (q : ShortQueue 1),
    run (ShortQueue.init 1) ops = some q → q = ShortQueue.init 1 := by
  intro ops
  induction ops with
  | nil =>
    intro q h
    simp [run] at h
    exact h.symm
  | cons op ops ih =>
    intro q h
    simp only [run, step_one op] at h
    exact ih q h

lemma reachable_one {q : ShortQueue 1} (hr : Reachable 1 q) :
    q = ShortQueue.init 1 := by
  obtain ⟨ops, h⟩ := hr
  exact run_one ops q h

/-- C10: degenerate capacity N = 1: usable capacity is 0, every reachable
state is both empty and full, every push fails with the state unchanged,
and pop always returns the empty marker. -/
theorem capacity_one_degenerate (q : ShortQueue 1) (hr : Reachable 1 q) :
    ShortQueue.capacity 1 = 0 ∧
    ShortQueue.is_empty q = true ∧
    ShortQueue.is_full q = some true ∧
    (∀ v, ShortQueue.push_inner q v = some (false, q)) ∧
    ShortQueue.pop_inner q = some (none, q) := by
  have hq := reachable_one hr
  subst hq
  exact ⟨rfl, rfl, rfl, fun v => rfl, rfl⟩

/-- Witness for capacity_one_degenerate on the fresh N = 1 queue. -/
theorem capacity_one_degenerate_witness :
    ShortQueue.is_full (ShortQueue.init 1) = some true ∧
    ShortQueue.push_inner (ShortQueue.init 1) 7 = some (false, ShortQueue.init 1) ∧
    ShortQueue.pop_inner (ShortQueue.init 1) = some (none, ShortQueue.init 1) :=
  ⟨(capacity_one_degenerate (ShortQueue.init 1) ⟨[], rfl⟩).2.2.1,
   (capacity_one_degenerate (ShortQueue.init 1) ⟨[], rfl⟩).2.2.2.1 7,
   (capacity_one_degenerate (ShortQueue.init 1) ⟨[], rfl⟩).2.2.2.2⟩
